import Mathlib

/-!
Verification of the trade-ledger core of the `binance_trading` repository,
embedded from `src/db/src/lib.rs` (the canonical `db` crate).

Modelling conventions:
* `i64` fields are embedded as `Int`; vector indices (`usize`) as `Nat`,
  with `usize` wrap-around subtraction made explicit modulo `2 ^ 64` where
  the source performs unsigned arithmetic.
* Decimal values (`price`, `qty`, `quoteQty`) are carried as `String`,
  exactly as in the source.
* Rust panics (`unwrap`, out-of-bounds indexing, unsigned underflow) are
  embedded as `none` of an `Option`-valued result.
* File and network I/O is out of scope; `Db.new` receives the decoded
  content of the file as a JSON document, and `Db.load_more_data` receives
  the already-decoded fetched batch as an argument.  The serde codec
  (field renames, typed decoding) is embedded at the level of a JSON AST.
-/

/-- Embedding of `struct HistoricalTrade` from `src/db/src/lib.rs`
(serde renames map `trade_id ↦ "id"`, `quantity ↦ "qty"`,
`quote_quantity ↦ "quoteQty"`, `time_milliseconds ↦ "time"`,
`is_buyer_maker ↦ "isBuyerMaker"`, `is_best_match ↦ "isBestMatch"`). -/
structure HistoricalTrade where
  trade_id : Int
  price : String
  quantity : String
  quote_quantity : String
  time_milliseconds : Int
  is_buyer_maker : Bool
  is_best_match : Bool
deriving DecidableEq

/-- Comparator order used by the store: `a` may precede `b` iff
`b.trade_id ≤ a.trade_id`.  This is the order imposed by the source's
`sort_by(|a, b| b.trade_id.cmp(&a.trade_id))` (descending by id,
i.e. most recent first). -/
def recentFirst (a b : HistoricalTrade) : Prop :=
  b.trade_id ≤ a.trade_id

instance : DecidableRel recentFirst :=
  fun a b => inferInstanceAs (Decidable (b.trade_id ≤ a.trade_id))

instance : IsTotal HistoricalTrade recentFirst :=
  ⟨fun a b => le_total b.trade_id a.trade_id⟩

instance : IsTrans HistoricalTrade recentFirst :=
  ⟨fun _ _ _ h1 h2 => le_trans h2 h1⟩

/-- Embedding of `deserialized.sort_by(|a, b| b.trade_id.cmp(&a.trade_id))`:
a stable sort into descending `trade_id` order (Rust's `sort_by` is stable;
`List.insertionSort` is the stable sort of Mathlib). -/
def sortRecentFirst (l : List HistoricalTrade) : List HistoricalTrade :=
  List.insertionSort recentFirst l

/-- JSON documents, the abstraction of the archive file content that
`serde_json` reads and writes. -/
inductive Json where
  | num (n : Int)
  | str (s : String)
  | bool (b : Bool)
  | arr (elems : List Json)
  | obj (fields : List (String × Json))

/-- Field lookup inside a JSON object (serde matches fields by name,
ignoring unknown fields). -/
def Json.getField : Json → String → Option Json
  | .obj fields, key => fields.lookup key
  | _, _ => none

/-- Typed extraction of an integer, as serde does for an `i64` field. -/
def Json.asNum : Json → Option Int
  | .num n => some n
  | _ => none

/-- Typed extraction of a string field. -/
def Json.asStr : Json → Option String
  | .str s => some s
  | _ => none

/-- Typed extraction of a boolean field. -/
def Json.asBool : Json → Option Bool
  | .bool b => some b
  | _ => none

/-- Embedding of serde `Serialize` for `HistoricalTrade`, with the
`#[serde(rename = ...)]` field names of the source. -/
def HistoricalTrade.toJson (t : HistoricalTrade) : Json :=
  .obj [("id", .num t.trade_id), ("price", .str t.price),
        ("qty", .str t.quantity), ("quoteQty", .str t.quote_quantity),
        ("time", .num t.time_milliseconds),
        ("isBuyerMaker", .bool t.is_buyer_maker),
        ("isBestMatch", .bool t.is_best_match)]

/-- Embedding of serde `Deserialize` for `HistoricalTrade`: every renamed
field must be present with the right type; decimal strings are taken
verbatim. -/
def HistoricalTrade.fromJson (j : Json) : Option HistoricalTrade := do
  let trade_id ← (← j.getField "id").asNum
  let price ← (← j.getField "price").asStr
  let quantity ← (← j.getField "qty").asStr
  let quote_quantity ← (← j.getField "quoteQty").asStr
  let time_milliseconds ← (← j.getField "time").asNum
  let is_buyer_maker ← (← j.getField "isBuyerMaker").asBool
  let is_best_match ← (← j.getField "isBestMatch").asBool
  some { trade_id, price, quantity, quote_quantity, time_milliseconds,
         is_buyer_maker, is_best_match }

/-- Element-wise decoding of a JSON array of trades: fails as a whole if
any element fails, as serde does. -/
def decodeTradeList : List Json → Option (List HistoricalTrade)
  | [] => some []
  | j :: js => do
    let t ← HistoricalTrade.fromJson j
    let ts ← decodeTradeList js
    some (t :: ts)

/-- Embedding of `serde_json::from_reader::<Vec<HistoricalTrade>>`: the
document must be an array and every element must decode. -/
def decodeTrades : Json → Option (List HistoricalTrade)
  | .arr elems => decodeTradeList elems
  | _ => none

/-- Error kinds of the `error_chain!` block of `src/db/src/lib.rs`
(foreign links included). -/
inductive DbError where
  | EmptyDbError
  | ApiKeyNotFoundError
  | IntersectingTradeSlicesError (old_id : Int) (new_id : Int)
  | BadStatusCodeError
  | IoError
  | JsonDecodeError
deriving DecidableEq

/-- Embedding of `struct Db`: the record vector, stored (per the source
comment) from most recent to least recent. -/
structure Db where
  data : List HistoricalTrade
deriving DecidableEq

instance {ε α : Type} [DecidableEq ε] [DecidableEq α] : DecidableEq (Except ε α) :=
  fun a b =>
    match a, b with
    | .error x, .error y =>
      if h : x = y then .isTrue (by rw [h]) else .isFalse (by simp [h])
    | .ok x, .ok y =>
      if h : x = y then .isTrue (by rw [h]) else .isFalse (by simp [h])
    | .error _, .ok _ => .isFalse (by simp)
    | .ok _, .error _ => .isFalse (by simp)

/-- The `usize` modulus: vector indices are 64-bit unsigned machine words. -/
def USIZE : Nat := 2 ^ 64

/-- Embedding of `Db::get_data_len`. -/
def Db.get_data_len (db : Db) : Nat :=
  db.data.length

/-- Embedding of `Db::get_data`: `&self.data[self.data.len() - idx - 1]`.
The index expression is `usize` arithmetic, so the subtraction wraps
modulo `2 ^ 64`; an out-of-range result (equivalently, in debug builds,
the underflow itself) panics, embedded as `none`. -/
def Db.get_data (db : Db) (idx : Nat) : Option HistoricalTrade :=
  db.data[(db.data.length + USIZE - idx - 1) % USIZE]?

/-- Embedding of `Db::get_min_trade_id`:
`self.data.last().unwrap().trade_id`; `none` embeds the `unwrap` panic
on an empty vector. -/
def Db.get_min_trade_id (db : Db) : Option Int :=
  db.data.getLast?.map (·.trade_id)

/-- Embedding of `Db::get_max_trade_id`: `self.data[0].trade_id`; `none`
embeds the out-of-bounds panic on an empty vector. -/
def Db.get_max_trade_id (db : Db) : Option Int :=
  db.data.head?.map (·.trade_id)

/-- Embedding of `Db::get_min_time_milliseconds`:
`self.data.last().unwrap().time_milliseconds`. -/
def Db.get_min_time_milliseconds (db : Db) : Option Int :=
  db.data.getLast?.map (·.time_milliseconds)

/-- Embedding of `Db::new` after file I/O: decode the file content
(`serde_json::from_reader`), reject an empty vector with `EmptyDbError`,
then sort descending by `trade_id`. -/
def Db.new (fileContent : Json) : Except DbError Db :=
  match decodeTrades fileContent with
  | none => .error .JsonDecodeError
  | some deserialized =>
    if deserialized.length = 0 then .error .EmptyDbError
    else .ok { data := sortRecentFirst deserialized }

/-- Embedding of `Db::from`: reject an empty vector with `EmptyDbError`,
otherwise wrap the vector as given (the source performs no sort here). -/
def Db.from_records (data : List HistoricalTrade) : Except DbError Db :=
  if data.length = 0 then .error .EmptyDbError
  else .ok { data := data }

/-- Embedding of `Db::load_more_data` after the network fetch and JSON
decode succeeded with batch `new_data`.  The result is the post-state of
`&mut self` paired with the returned error, if any (every `return Err`
in the source happens before `self.data` is touched, so the post-state
on error is the unchanged pre-state); the outer `none` embeds the
`self.data.last().unwrap()` panic on an empty store. -/
def Db.load_more_data (db : Db) (new_data : List HistoricalTrade) :
    Option (Db × Option DbError) :=
  match db.data.getLast? with
  | none => none
  | some lastRec =>
    match new_data with
    | [] => some (db, some .EmptyDbError)
    | firstRec :: _ =>
      if lastRec.trade_id ≤ firstRec.trade_id then
        some (db, some (.IntersectingTradeSlicesError lastRec.trade_id
                          firstRec.trade_id))
      else
        some ({ data := db.data ++ sortRecentFirst new_data }, none)

/-- Driver for N successive extensions (the ingestion loop of the CLI):
`some` exactly when every single extension returned `Ok(())`. -/
def Db.extend_batches (db : Db) : List (List HistoricalTrade) → Option Db
  | [] => some db
  | b :: bs =>
    match db.load_more_data b with
    | some (db2, none) => db2.extend_batches bs
    | _ => none

/-- Embedding of `Db::save`: `serde_json::to_writer(..., &self.data)`
writes the record vector, in its stored order, as a JSON array. -/
def Db.save (db : Db) : Json :=
  .arr (db.data.map HistoricalTrade.toJson)

/-- Strips one optional leading sign, as the Rust `f64` parser does. -/
def stripSign : List Char → List Char
  | '+' :: rest => rest
  | '-' :: rest => rest
  | cs => cs

/-- A nonempty run of ASCII digits (`Count` in the Rust `f64` grammar). -/
def isCount (cs : List Char) : Bool :=
  !cs.isEmpty && cs.all (·.isDigit)

/-- Splits at the first exponent marker `e`/`E`, if present. -/
def splitExp : List Char → List Char × Option (List Char)
  | [] => ([], none)
  | c :: rest =>
    if c = 'e' ∨ c = 'E' then ([], some rest)
    else
      let p := splitExp rest
      (c :: p.1, p.2)

/-- The mantissa part of the Rust `f64` grammar: digits with at most one
dot and at least one digit (`Count '.'? | Count '.' Count | '.' Count`). -/
def isMantissa (cs : List Char) : Bool :=
  cs.all (fun c => c.isDigit || c = '.') &&
  decide (cs.countP (fun c => c = '.') ≤ 1) &&
  cs.any (·.isDigit)

/-- The special bodies `inf`, `infinity` and `nan` accepted
case-insensitively by the Rust `f64` parser. -/
def isSpecialBody (cs : List Char) : Bool :=
  let l := cs.map Char.toLower
  l = ['i', 'n', 'f'] ∨ l = ['i', 'n', 'f', 'i', 'n', 'i', 't', 'y'] ∨
    l = ['n', 'a', 'n']

/-- A `Number` body: mantissa with an optional well-formed exponent. -/
def isNumberBody (cs : List Char) : Bool :=
  match splitExp cs with
  | (m, none) => isMantissa m
  | (m, some e) => isMantissa m && isCount (stripSign e)

/-- Embedding of `str::parse::<f64>().is_ok()`: the acceptance grammar of
Rust's `f64` `FromStr` implementation
(`Sign? (inf | infinity | nan | Number)`, case-insensitive specials). -/
def isValidFloatString (s : String) : Bool :=
  let cs := stripSign s.data
  isSpecialBody cs || isNumberBody cs

/-- Embedding of `HistoricalTrade::get_price`:
`self.price.parse().unwrap()`.  `none` embeds the `unwrap` panic on a
string the `f64` parser rejects; on success the source returns the parsed
floating-point value, abstracted here as the validated decimal text
(the numeric value of the float itself is out of scope). -/
def HistoricalTrade.get_price (t : HistoricalTrade) : Option String :=
  if isValidFloatString t.price then some t.price else none

/-! ## Helper lemmas -/

theorem fromJson_toJson (t : HistoricalTrade) :
    HistoricalTrade.fromJson t.toJson = some t := rfl

theorem decodeTrades_map_toJson (l : List HistoricalTrade) :
    decodeTrades (Json.arr (l.map HistoricalTrade.toJson)) = some l := by
  induction l with
  | nil => rfl
  | cons t ts ih =>
    simp only [decodeTrades] at ih ⊢
    simp [decodeTradeList, fromJson_toJson, ih]

theorem sortRecentFirst_perm (l : List HistoricalTrade) :
    (sortRecentFirst l).Perm l :=
  List.perm_insertionSort recentFirst l

theorem sortRecentFirst_sorted (l : List HistoricalTrade) :
    List.Sorted recentFirst (sortRecentFirst l) :=
  List.sorted_insertionSort recentFirst l

theorem mem_of_getLast?_eq {α : Type} {l : List α} {x : α}
    (h : l.getLast? = some x) : x ∈ l := by
  obtain ⟨hne, rfl⟩ := List.mem_getLast?_eq_getLast (Option.mem_def.mpr h)
  exact List.getLast_mem hne

theorem sorted_getLast?_minimal :
    ∀ {l : List HistoricalTrade}, List.Sorted recentFirst l →
      ∀ {x : HistoricalTrade}, l.getLast? = some x →
      ∀ y ∈ l, x.trade_id ≤ y.trade_id := by
  intro l
  induction l with
  | nil => intro _ x hx; cases hx
  | cons a t ih =>
    intro hs x hx y hy
    cases t with
    | nil =>
      obtain rfl : a = x := by simpa using hx
      obtain rfl : y = a := by simpa using hy
      exact le_refl _
    | cons b t2 =>
      rw [List.getLast?_cons_cons] at hx
      rcases List.mem_cons.mp hy with rfl | hy2
      · exact List.rel_of_sorted_cons hs x (mem_of_getLast?_eq hx)
      · exact ih hs.of_cons hx y hy2

theorem sorted_head?_maximal {l : List HistoricalTrade}
    (hs : List.Sorted recentFirst l) {x : HistoricalTrade}
    (hx : l.head? = some x) : ∀ y ∈ l, y.trade_id ≤ x.trade_id := by
  cases l with
  | nil => cases hx
  | cons a t =>
    obtain rfl : a = x := by simpa using hx
    intro y hy
    rcases List.mem_cons.mp hy with rfl | hy2
    · exact le_refl _
    · exact List.rel_of_sorted_cons hs y hy2

theorem USIZE_eq : USIZE = 18446744073709551616 := by norm_num [USIZE]

theorem get_data_char (db : Db) (idx : Nat) (hidx : idx < USIZE)
    (hlen : db.data.length < USIZE) :
    db.get_data idx =
      if idx < db.data.length then db.data[db.data.length - idx - 1]? else none := by
  unfold Db.get_data
  rw [USIZE_eq] at hidx hlen ⊢
  by_cases h : idx < db.data.length
  · rw [if_pos h]
    have he : db.data.length + 18446744073709551616 - idx - 1 =
        db.data.length - idx - 1 + 18446744073709551616 := by omega
    rw [he, Nat.add_mod_right, Nat.mod_eq_of_lt (by omega)]
  · rw [if_neg h]
    rw [Nat.mod_eq_of_lt (by omega)]
    exact List.getElem?_eq_none (by omega)

theorem get_data_sorted_mono (db : Db) (hs : List.Sorted recentFirst db.data)
    (hlen : db.data.length < USIZE) {i j : Nat} (hi : i < USIZE) (hj : j < USIZE)
    (hij : i ≤ j) {ti tj : HistoricalTrade} (hti : db.get_data i = some ti)
    (htj : db.get_data j = some tj) : ti.trade_id ≤ tj.trade_id := by
  rw [get_data_char db i hi hlen] at hti
  rw [get_data_char db j hj hlen] at htj
  by_cases hilen : i < db.data.length
  case neg => rw [if_neg hilen] at hti; cases hti
  rw [if_pos hilen] at hti
  have hjlen : j < db.data.length := by
    by_contra hcon
    rw [if_neg hcon] at htj; cases htj
  rw [if_pos hjlen] at htj
  have hpi : db.data.length - i - 1 < db.data.length := by omega
  have hpj : db.data.length - j - 1 < db.data.length := by omega
  rw [List.getElem?_eq_getElem hpi] at hti
  rw [List.getElem?_eq_getElem hpj] at htj
  injection hti with hti
  injection htj with htj
  rcases Nat.lt_or_ge (db.data.length - j - 1) (db.data.length - i - 1) with hlt | hge
  · have hrel := List.pairwise_iff_get.mp hs ⟨db.data.length - j - 1, hpj⟩
      ⟨db.data.length - i - 1, hpi⟩ hlt
    simp only [List.get_eq_getElem] at hrel
    rw [hti, htj] at hrel
    exact hrel
  · have hieqj : i = j := by omega
    subst hieqj
    rw [← hti, ← htj]

/-! ## Concrete sample data -/

/-- A sample trade with the given id (decimal strings fixed, time derived
monotonically from the id). -/
def sampleTrade (i : Int) : HistoricalTrade :=
  ⟨i, "1.00", "2.00", "2.00", i * 10, false, true⟩

/-- A canonically ordered store holding ids 102, 101, 100 (most recent
first), as `Db::new` would produce it. -/
def dbHundreds : Db := ⟨[sampleTrade 102, sampleTrade 101, sampleTrade 100]⟩

/-- A trade with id 1. -/
def tradeA : HistoricalTrade := ⟨1, "0.10", "1.0", "0.10", 1000, false, true⟩

/-- A trade with id 2. -/
def tradeB : HistoricalTrade := ⟨2, "0.20", "2.0", "0.40", 2000, true, false⟩

/-- The store `Db::from(vec![tradeA, tradeB])` produces: ascending ids,
violating the recent-first storage convention. -/
def dbAsc : Db := ⟨[tradeA, tradeB]⟩

/-- The canonically ordered store on the same two records. -/
def dbCanon : Db := ⟨[tradeB, tradeA]⟩

/-- The store after extending `dbHundreds` with the batch of ids 98, 99. -/
def dbExtended : Db := ⟨dbHundreds.data ++ [sampleTrade 99, sampleTrade 98]⟩

/-! ## Claim theorems -/

/-- C1: extending with a batch whose boundary (first) trade id is greater
than or equal to the store's current minimum id fails with
`IntersectingTradeSlicesError` (the source's realization of the spec's
`IntersectingRangeError`) carrying the store's minimum id and the batch's
boundary id, and the post-state is the unchanged store, so `len()`,
`min_trade_id()` and `max_trade_id()` are identical before and after the
failed call. -/
theorem load_more_data_overlap_guard (db : Db) (firstRec : HistoricalTrade)
    (rest : List HistoricalTrade) (m : Int)
    (hmin : db.get_min_trade_id = some m) (hge : m ≤ firstRec.trade_id) :
    db.load_more_data (firstRec :: rest) =
      some (db, some (DbError.IntersectingTradeSlicesError m firstRec.trade_id)) ∧
    ∀ db2 e, db.load_more_data (firstRec :: rest) = some (db2, e) →
      db2.get_data_len = db.get_data_len ∧
      db2.get_min_trade_id = db.get_min_trade_id ∧
      db2.get_max_trade_id = db.get_max_trade_id := by
  unfold Db.get_min_trade_id at hmin
  obtain ⟨lastRec, hlast, hid⟩ := Option.map_eq_some'.mp hmin
  subst hid
  have hmain : db.load_more_data (firstRec :: rest) =
      some (db, some (DbError.IntersectingTradeSlicesError lastRec.trade_id
        firstRec.trade_id)) := by
    simp only [Db.load_more_data, hlast]
    rw [if_pos hge]
  refine ⟨hmain, ?_⟩
  intro db2 e h
  rw [hmain] at h
  injection h with h1
  injection h1 with h2 h3
  cases h2
  exact ⟨rfl, rfl, rfl⟩

/-- Witness for `load_more_data_overlap_guard`: a store with ids
102, 101, 100 and an overlapping batch whose boundary id is 100. -/
theorem load_more_data_overlap_guard_witness :
    dbHundreds.get_min_trade_id = some 100 ∧
    (100 : Int) ≤ (sampleTrade 100).trade_id ∧
    (dbHundreds.load_more_data [sampleTrade 100] =
        some (dbHundreds,
          some (DbError.IntersectingTradeSlicesError 100 (sampleTrade 100).trade_id)) ∧
      ∀ db2 e, dbHundreds.load_more_data [sampleTrade 100] = some (db2, e) →
        db2.get_data_len = dbHundreds.get_data_len ∧
        db2.get_min_trade_id = dbHundreds.get_min_trade_id ∧
        db2.get_max_trade_id = dbHundreds.get_max_trade_id) :=
  ⟨by decide, by decide,
    load_more_data_overlap_guard dbHundreds (sampleTrade 100) [] 100
      (by decide) (by decide)⟩

/-- C2 counterexample: on the store loaded from the two-record archive
with ids 1 and 2, `get_data 0` returns the id-1 record, i.e. the
oldest/lowest-id record, not the most-recently-fetched/highest-id one
(which has id 2), and `get_data 1` returns the id-2 record: increasing
index walks toward newer records, refuting the claim as stated. -/
theorem get_data_index_zero_newest_cex :
    Db.new (Json.arr [tradeA.toJson, tradeB.toJson]) = .ok dbCanon ∧
    dbCanon.get_data 0 = some tradeA ∧
    tradeA.trade_id = 1 ∧
    dbCanon.get_max_trade_id = some 2 ∧
    dbCanon.get_max_trade_id ≠ some tradeA.trade_id ∧
    dbCanon.get_data 1 = some tradeB ∧
    tradeB.trade_id = 2 := by
  decide

/-- C2 (amended): for a store in canonical recent-first order, logical
position 0 is the oldest/minimum-id record and increasing index walks
toward newer (higher-id) records. -/
theorem get_data_index_zero_oldest (db : Db)
    (hsorted : List.Sorted recentFirst db.data)
    (hlen : db.data.length < USIZE) :
    (∀ t, db.get_data 0 = some t → db.get_min_trade_id = some t.trade_id) ∧
    ∀ i j ti tj, i < USIZE → j < USIZE → i ≤ j → db.get_data i = some ti →
      db.get_data j = some tj → ti.trade_id ≤ tj.trade_id := by
  constructor
  · intro t ht
    rw [get_data_char db 0 (by rw [USIZE_eq]; omega) hlen] at ht
    by_cases h0 : 0 < db.data.length
    · rw [if_pos h0] at ht
      have hlast : db.data.getLast? = some t := by
        rw [List.getLast?_eq_getElem?]
        simpa using ht
      unfold Db.get_min_trade_id
      rw [hlast]
      rfl
    · rw [if_neg h0] at ht
      cases ht
  · intro i j ti tj hi hj hij hti htj
    exact get_data_sorted_mono db hsorted hlen hi hj hij hti htj

/-- Witness for `get_data_index_zero_oldest` on the canonical two-record
store: position 0 carries the minimum id and ids increase with the index. -/
theorem get_data_index_zero_oldest_witness :
    dbCanon.get_min_trade_id = some tradeA.trade_id ∧
    tradeA.trade_id ≤ tradeB.trade_id := by
  have h := get_data_index_zero_oldest dbCanon (by decide)
    (by rw [USIZE_eq]; norm_num [dbCanon])
  exact ⟨h.1 tradeA (by decide),
    h.2 0 1 tradeA tradeB (by rw [USIZE_eq]; norm_num)
      (by rw [USIZE_eq]; norm_num) (by norm_num) (by decide) (by decide)⟩

/-- C3 counterexample: the store built by `Db::from(vec![tradeA, tradeB])`
holds ascending ids, so it reports `min_trade_id() = 2` and
`max_trade_id() = 1`; saving and re-loading it re-sorts the records, and
the loaded store reports `min_trade_id() = 1`.  Hence save-then-load does
not preserve the extremities of every non-empty store with unique ids. -/
theorem save_then_load_roundtrip_cex :
    Db.from_records [tradeA, tradeB] = .ok dbAsc ∧
    tradeA.trade_id ≠ tradeB.trade_id ∧
    dbAsc.get_min_trade_id = some 2 ∧
    dbAsc.get_max_trade_id = some 1 ∧
    Db.new dbAsc.save = .ok dbCanon ∧
    dbCanon.get_min_trade_id = some 1 ∧
    dbCanon.get_min_trade_id ≠ dbAsc.get_min_trade_id := by
  decide

/-- C3 (amended): for every non-empty store with unique trade ids whose
records are in the canonical recent-first order (every store produced by
`Db::new` or by successful `load_more_data` calls is such; only `Db::from`
can produce others), `save` followed by `load` succeeds and yields a store
with identical record content — every field of every record, decimal
strings byte-for-byte, ignoring physical order — and identical
extremities. -/
theorem save_then_load_roundtrip (db : Db) (hne : db.data ≠ [])
    (_huniq : (db.data.map (·.trade_id)).Nodup)
    (hsorted : List.Sorted recentFirst db.data) :
    ∃ db2, Db.new db.save = .ok db2 ∧ db2.data.Perm db.data ∧
      db2.get_min_trade_id = db.get_min_trade_id ∧
      db2.get_max_trade_id = db.get_max_trade_id ∧
      db2.get_min_time_milliseconds = db.get_min_time_milliseconds := by
  have hdec : decodeTrades db.save = some db.data :=
    decodeTrades_map_toJson db.data
  refine ⟨db, ?_, List.Perm.refl _, rfl, rfl, rfl⟩
  simp only [Db.new, hdec]
  rw [if_neg (by simpa using hne)]
  simp only [sortRecentFirst]
  rw [hsorted.insertionSort_eq]

/-- Witness for `save_then_load_roundtrip` on the canonical two-record
store. -/
theorem save_then_load_roundtrip_witness :
    dbCanon.data ≠ [] ∧
    ∃ db2, Db.new dbCanon.save = .ok db2 ∧ db2.data.Perm dbCanon.data ∧
      db2.get_min_trade_id = dbCanon.get_min_trade_id ∧
      db2.get_max_trade_id = dbCanon.get_max_trade_id ∧
      db2.get_min_time_milliseconds = dbCanon.get_min_time_milliseconds :=
  ⟨by decide,
    save_then_load_roundtrip dbCanon (by decide) (by decide) (by decide)⟩

/-- C4: loading a non-empty well-formed archive (unique ids), whatever the
physical order of records in the file, produces a store whose records are
the file's records sorted into canonical recent-first order, with the
extremities derived from the records themselves: `min_trade_id()` is the
smallest id in the file, `max_trade_id()` the largest, and
`min_time_milliseconds()` the time of the minimum-id record. -/
theorem new_sorts_and_derives_extremities (l : List HistoricalTrade) (db : Db)
    (hne : l ≠ []) (huniq : (l.map (·.trade_id)).Nodup)
    (hload : Db.new (Json.arr (l.map HistoricalTrade.toJson)) = .ok db) :
    db.data.Perm l ∧ List.Sorted recentFirst db.data ∧
    (∀ t ∈ l, (∀ u ∈ l, t.trade_id ≤ u.trade_id) →
      db.get_min_trade_id = some t.trade_id ∧
      db.get_min_time_milliseconds = some t.time_milliseconds) ∧
    (∀ t ∈ l, (∀ u ∈ l, u.trade_id ≤ t.trade_id) →
      db.get_max_trade_id = some t.trade_id) := by
  have hdec : decodeTrades (Json.arr (l.map HistoricalTrade.toJson)) = some l :=
    decodeTrades_map_toJson l
  simp only [Db.new, hdec] at hload
  rw [if_neg (by simpa using hne)] at hload
  injection hload with hok
  subst hok
  have hperm := sortRecentFirst_perm l
  have hs := sortRecentFirst_sorted l
  have hne2 : sortRecentFirst l ≠ [] := by
    intro hc
    apply hne
    have hlen := hperm.length_eq
    rw [hc] at hlen
    exact List.length_eq_zero.mp hlen.symm
  refine ⟨hperm, hs, ?_, ?_⟩
  · intro t ht hmin_t
    have hx : (sortRecentFirst l).getLast? = some ((sortRecentFirst l).getLast hne2) :=
      List.getLast?_eq_getLast_of_ne_nil hne2
    set x := (sortRecentFirst l).getLast hne2 with hxdef
    have hxmem : x ∈ l := hperm.mem_iff.mp (List.getLast_mem hne2)
    have hxmin : ∀ y ∈ sortRecentFirst l, x.trade_id ≤ y.trade_id :=
      sorted_getLast?_minimal hs hx
    have h1 : t.trade_id ≤ x.trade_id := hmin_t x hxmem
    have h2 : x.trade_id ≤ t.trade_id := hxmin t (hperm.mem_iff.mpr ht)
    have hxt : x = t := List.inj_on_of_nodup_map huniq hxmem ht (le_antisymm h2 h1)
    constructor
    · simp only [Db.get_min_trade_id]
      rw [hx, hxt]
      rfl
    · simp only [Db.get_min_time_milliseconds]
      rw [hx, hxt]
      rfl
  · intro t ht hmax_t
    cases hsl : sortRecentFirst l with
    | nil => exact absurd hsl hne2
    | cons y ys =>
      have hymem : y ∈ l := hperm.mem_iff.mp (by rw [hsl]; exact List.mem_cons_self y ys)
      have hymax : ∀ z ∈ sortRecentFirst l, z.trade_id ≤ y.trade_id :=
        sorted_head?_maximal hs (by rw [hsl]; rfl)
      have h1 : y.trade_id ≤ t.trade_id := hmax_t y hymem
      have h2 : t.trade_id ≤ y.trade_id := hymax t (hperm.mem_iff.mpr ht)
      simp only [Db.get_max_trade_id]
      simp [le_antisymm h1 h2]

/-- Witness for `new_sorts_and_derives_extremities` on the two-record
archive stored in ascending (non-canonical) physical order. -/
theorem new_sorts_and_derives_extremities_witness :
    dbCanon.get_min_trade_id = some tradeA.trade_id ∧
    dbCanon.get_min_time_milliseconds = some tradeA.time_milliseconds ∧
    dbCanon.get_max_trade_id = some tradeB.trade_id := by
  have h := new_sorts_and_derives_extremities [tradeA, tradeB] dbCanon
    (by decide) (by decide) (by decide)
  exact ⟨(h.2.2.1 tradeA (by decide) (by decide)).1,
    (h.2.2.1 tradeA (by decide) (by decide)).2,
    h.2.2.2 tradeB (by decide) (by decide)⟩

/-- C5: after every successful `load_more_data` call, `len()` grows by
exactly the size of the fetched batch and `min_trade_id()` strictly
decreases; consequently, after N successful extensions (`extend_batches`)
`len()` has grown by the sum of the N batch sizes. -/
theorem load_more_data_growth :
    (∀ (db : Db) (nd : List HistoricalTrade) (db2 : Db),
      db.load_more_data nd = some (db2, none) →
      db2.get_data_len = db.get_data_len + nd.length ∧
      ∀ m m2, db.get_min_trade_id = some m → db2.get_min_trade_id = some m2 →
        m2 < m) ∧
    ∀ (db : Db) (bs : List (List HistoricalTrade)) (db2 : Db),
      db.extend_batches bs = some db2 →
      db2.get_data_len = db.get_data_len + (bs.map List.length).sum := by
  have hstep : ∀ (db : Db) (nd : List HistoricalTrade) (db2 : Db),
      db.load_more_data nd = some (db2, none) →
      db2.get_data_len = db.get_data_len + nd.length ∧
      ∀ m m2, db.get_min_trade_id = some m → db2.get_min_trade_id = some m2 →
        m2 < m := by
    intro db nd db2 h
    cases nd with
    | nil =>
      cases hlast : db.data.getLast? with
      | none => simp [Db.load_more_data, hlast] at h
      | some lastRec => simp [Db.load_more_data, hlast] at h
    | cons firstRec rest =>
      cases hlast : db.data.getLast? with
      | none => simp [Db.load_more_data, hlast] at h
      | some lastRec =>
        simp only [Db.load_more_data, hlast] at h
        by_cases hcmp : lastRec.trade_id ≤ firstRec.trade_id
        · rw [if_pos hcmp] at h
          simp at h
        · rw [if_neg hcmp] at h
          injection h with h1
          injection h1 with h2 h3
          subst h2
          have hsne : sortRecentFirst (firstRec :: rest) ≠ [] := by
            intro hc
            have hpl := (sortRecentFirst_perm (firstRec :: rest)).length_eq
            rw [hc] at hpl
            simp at hpl
          constructor
          · simp only [Db.get_data_len, List.length_append]
            rw [(sortRecentFirst_perm (firstRec :: rest)).length_eq]
          · intro m m2 hm hm2
            simp only [Db.get_min_trade_id, hlast] at hm
            injection hm with hm
            simp only [Db.get_min_trade_id] at hm2
            rw [List.getLast?_append_of_ne_nil _ hsne] at hm2
            obtain ⟨x, hx, hxid⟩ := Option.map_eq_some'.mp hm2
            have hxmin := sorted_getLast?_minimal
              (sortRecentFirst_sorted (firstRec :: rest)) hx
            have hxle : x.trade_id ≤ firstRec.trade_id :=
              hxmin firstRec ((sortRecentFirst_perm _).mem_iff.mpr
                (List.mem_cons_self _ _))
            rw [← hxid, ← hm]
            exact lt_of_le_of_lt hxle (lt_of_not_ge hcmp)
  refine ⟨hstep, ?_⟩
  intro db bs
  induction bs generalizing db with
  | nil =>
    intro db2 h
    simp only [Db.extend_batches] at h
    injection h with h
    subst h
    simp
  | cons b bs ih =>
    intro db2 h
    simp only [Db.extend_batches] at h
    split at h
    case h_1 db3 heq =>
      have hb := (hstep db b db3 heq).1
      have hrest := ih db3 db2 h
      simp only [List.map_cons, List.sum_cons]
      rw [hrest, hb]
      ring
    case h_2 => cases h

/-- Witness for `load_more_data_growth`: extending the store of ids
102, 101, 100 with the batch of ids 98, 99 grows the length from 3 to 5
and drops the minimum id from 100 to 98; the same run through
`extend_batches` adds the batch size to the length. -/
theorem load_more_data_growth_witness :
    (dbExtended.get_data_len = dbHundreds.get_data_len +
        [sampleTrade 98, sampleTrade 99].length ∧
      ∀ m m2, dbHundreds.get_min_trade_id = some m →
        dbExtended.get_min_trade_id = some m2 → m2 < m) ∧
    dbExtended.get_data_len = dbHundreds.get_data_len +
      ([[sampleTrade 98, sampleTrade 99]].map List.length).sum :=
  ⟨load_more_data_growth.1 dbHundreds [sampleTrade 98, sampleTrade 99]
      dbExtended (by decide),
    load_more_data_growth.2 dbHundreds [[sampleTrade 98, sampleTrade 99]]
      dbExtended (by decide)⟩

/-- C6: a load (`Db::new`) or `Db::from` that receives zero records fails
with `EmptyDbError` (the source realizes the spec's `EmptyArchiveError`
and `EmptyBatchError` as this one kind) and no store is produced, and a
`load_more_data` whose fetched batch is empty fails with `EmptyDbError`
while leaving the store's length and extremities unchanged. -/
theorem empty_input_guards :
    (∀ j, decodeTrades j = some [] → Db.new j = .error DbError.EmptyDbError) ∧
    Db.from_records [] = .error DbError.EmptyDbError ∧
    ∀ (db db2 : Db) (e : Option DbError), db.load_more_data [] = some (db2, e) →
      e = some DbError.EmptyDbError ∧
      db2.get_data_len = db.get_data_len ∧
      db2.get_min_trade_id = db.get_min_trade_id ∧
      db2.get_max_trade_id = db.get_max_trade_id ∧
      db2.get_min_time_milliseconds = db.get_min_time_milliseconds := by
  refine ⟨?_, rfl, ?_⟩
  · intro j hj
    simp [Db.new, hj]
  · intro db db2 e h
    cases hlast : db.data.getLast? with
    | none => simp [Db.load_more_data, hlast] at h
    | some lastRec =>
      simp only [Db.load_more_data, hlast] at h
      injection h with h1
      injection h1 with h2 h3
      subst h2
      exact ⟨h3.symm, rfl, rfl, rfl, rfl⟩

/-- Witness for `empty_input_guards`: the empty JSON array archive and an
empty batch against the store of ids 102, 101, 100. -/
theorem empty_input_guards_witness :
    Db.new (Json.arr []) = .error DbError.EmptyDbError ∧
    some DbError.EmptyDbError = some DbError.EmptyDbError ∧
    dbHundreds.get_data_len = dbHundreds.get_data_len ∧
    dbHundreds.get_min_trade_id = dbHundreds.get_min_trade_id ∧
    dbHundreds.get_max_trade_id = dbHundreds.get_max_trade_id ∧
    dbHundreds.get_min_time_milliseconds = dbHundreds.get_min_time_milliseconds :=
  ⟨empty_input_guards.1 (Json.arr []) rfl,
    empty_input_guards.2.2 dbHundreds dbHundreds (some DbError.EmptyDbError)
      (by decide)⟩

/-- C7 counterexample: `Db::from(vec![tradeA, tradeB])` succeeds on the
ascending (hence not canonically ordered) input and returns it unsorted:
the resulting store is not ordered by the storage invariant, and its
reported `min_trade_id() = 2` exceeds its `max_trade_id() = 1`, refuting
the claim that `from_records` establishes the ordering invariant on every
non-empty input. -/
theorem from_records_unsorted_cex :
    Db.from_records [tradeA, tradeB] = .ok dbAsc ∧
    ¬ List.Sorted recentFirst dbAsc.data ∧
    dbAsc.get_min_trade_id = some 2 ∧
    dbAsc.get_max_trade_id = some 1 ∧
    ¬ ∀ m M, dbAsc.get_min_trade_id = some m → dbAsc.get_max_trade_id = some M →
      m ≤ M := by
  refine ⟨by decide, by decide, by decide, by decide, ?_⟩
  intro hcon
  have := hcon 2 1 (by decide) (by decide)
  omega

/-- C7 (amended): `from_records` performs no sort, so the ledger ordering
invariant holds for the store it returns exactly when the input batch is
already in canonical recent-first order; in that case the records are
totally ordered by trade id, `min_trade_id() ≤ max_trade_id()`, and
`get_data` enumerates records in ascending id order. -/
theorem from_records_sorted_input_ordered (l : List HistoricalTrade) (db : Db)
    (hsorted : List.Sorted recentFirst l) (hlen : l.length < USIZE)
    (h : Db.from_records l = .ok db) :
    List.Sorted recentFirst db.data ∧
    (∀ m M, db.get_min_trade_id = some m → db.get_max_trade_id = some M →
      m ≤ M) ∧
    ∀ i j ti tj, i < USIZE → j < USIZE → i ≤ j → db.get_data i = some ti →
      db.get_data j = some tj → ti.trade_id ≤ tj.trade_id := by
  unfold Db.from_records at h
  by_cases hl : l.length = 0
  · rw [if_pos hl] at h; cases h
  · rw [if_neg hl] at h
    injection h with h
    subst h
    refine ⟨hsorted, ?_, ?_⟩
    · intro m M hm hM
      simp only [Db.get_min_trade_id] at hm
      simp only [Db.get_max_trade_id] at hM
      obtain ⟨x, hx, hxid⟩ := Option.map_eq_some'.mp hm
      obtain ⟨y, hy, hyid⟩ := Option.map_eq_some'.mp hM
      have hxmem : x ∈ l := mem_of_getLast?_eq hx
      have := sorted_head?_maximal hsorted hy x hxmem
      omega
    · intro i j ti tj hi hj hij hti htj
      exact get_data_sorted_mono ⟨l⟩ hsorted hlen hi hj hij hti htj

/-- Witness for `from_records_sorted_input_ordered` on the canonical
two-record batch. -/
theorem from_records_sorted_input_ordered_witness :
    List.Sorted recentFirst dbCanon.data ∧
    (∀ m M, dbCanon.get_min_trade_id = some m →
      dbCanon.get_max_trade_id = some M → m ≤ M) ∧
    ∀ i j ti tj, i < USIZE → j < USIZE → i ≤ j → dbCanon.get_data i = some ti →
      dbCanon.get_data j = some tj → ti.trade_id ≤ tj.trade_id :=
  from_records_sorted_input_ordered [tradeB, tradeA] dbCanon (by decide)
    (by rw [USIZE_eq]; norm_num) (by decide)

/-- C9: evaluation of the code at a failing input.  `get_price` is
`self.price.parse().unwrap()`: on a price string that is not a valid
decimal number the `unwrap` panics (embedded as `none`), crashing the
process instead of returning a data-corruption error to the caller; on a
valid decimal string the parse succeeds. -/
theorem get_price_corrupt_input_panics :
    HistoricalTrade.get_price
      ⟨7, "not-a-number", "1.0", "1.0", 0, false, false⟩ = none ∧
    HistoricalTrade.get_price
      ⟨7, "0.06901500", "1.0", "1.0", 0, false, false⟩ =
        some "0.06901500" := by
  decide

/-- C10: the logical-index accessor is a partial function at the public
interface: for every store and every `usize` index, `get_data idx` panics
(embedded `none`) exactly when `idx ≥ len()` — in release builds the
wrapped `usize` subtraction produces an out-of-bounds vector index, in
debug builds the underflow itself aborts — and under the precondition
`idx < len()` it is total, returning the record at physical position
`len - idx - 1`. -/
theorem get_data_partial_out_of_bounds (db : Db) (idx : Nat)
    (hidx : idx < USIZE) (hlen : db.data.length < USIZE) :
    (db.get_data idx = none ↔ db.get_data_len ≤ idx) ∧
    (idx < db.get_data_len →
      db.get_data idx = db.data[db.data.length - idx - 1]?) := by
  have hc := get_data_char db idx hidx hlen
  simp only [Db.get_data_len]
  by_cases h : idx < db.data.length
  · rw [if_pos h] at hc
    refine ⟨⟨fun hnone => ?_, fun hge => absurd h (by omega)⟩, fun _ => hc⟩
    rw [hc, List.getElem?_eq_getElem (by omega)] at hnone
    cases hnone
  · rw [if_neg h] at hc
    exact ⟨⟨fun _ => by omega, fun _ => hc⟩, fun hlt => absurd hlt h⟩

/-- Witness for `get_data_partial_out_of_bounds` on the three-record
store, at the out-of-range index 7 and the in-range index 1. -/
theorem get_data_partial_out_of_bounds_witness :
    ((dbHundreds.get_data 7 = none ↔ dbHundreds.get_data_len ≤ 7) ∧
      (7 < dbHundreds.get_data_len →
        dbHundreds.get_data 7 = dbHundreds.data[dbHundreds.data.length - 7 - 1]?)) ∧
    ((dbHundreds.get_data 1 = none ↔ dbHundreds.get_data_len ≤ 1) ∧
      (1 < dbHundreds.get_data_len →
        dbHundreds.get_data 1 = dbHundreds.data[dbHundreds.data.length - 1 - 1]?)) :=
  ⟨get_data_partial_out_of_bounds dbHundreds 7 (by decide) (by decide),
    get_data_partial_out_of_bounds dbHundreds 1 (by decide) (by decide)⟩
